import Mathlib

/-!
Shallow embedding of the traffic video processing pipeline
(`backend/processor/process_video.py` and `backend/processor/yolov4_detect.py`).

Conventions of the embedding:
* Python floats are modelled as rationals (`ℚ`); Python `int()` truncation
  toward zero is `pyInt`; Python `round(x, 2)` is `round2` (round half to even).
* Python dicts keyed by label are association lists preserving insertion order.
* The random draws of `simulate_processing` and the per-frame raw model
  outputs are inputs of the embedded functions; the numeric ranges the
  random generator guarantees are captured by validity predicates.
* Video/file I/O and drawing calls mutate only external state and are omitted.
-/

abbrev Label := String

/-- Python `round` to the nearest integer, ties to even. -/
def roundHalfEven (q : ℚ) : ℤ :=
  if q - ⌊q⌋ < 1/2 then ⌊q⌋
  else if 1/2 < q - ⌊q⌋ then ⌊q⌋ + 1
  else if ⌊q⌋ % 2 = 0 then ⌊q⌋ else ⌊q⌋ + 1

/-- Python `round(x, 2)`. -/
def round2 (q : ℚ) : ℚ := (roundHalfEven (q * 100) : ℚ) / 100

/-- Python `int(x)`: truncation toward zero. -/
def pyInt (q : ℚ) : ℤ := if 0 ≤ q then ⌊q⌋ else ⌈q⌉

/-- Python `d.get(k, 0)` on a counts dict. -/
def dictGet : List (Label × Nat) → Label → Nat
  | [], _ => 0
  | (k, v) :: t, l => if k = l then v else dictGet t l

/-- Python `d[k] = d.get(k, 0) + 1`: bump in place, else append at the end. -/
def dictIncr : List (Label × Nat) → Label → List (Label × Nat)
  | [], l => [(l, 1)]
  | (k, v) :: t, l => if k = l then (k, v + 1) :: t else (k, v) :: dictIncr t l

/-- Python `k in d`. -/
def dictMem : List (Label × Nat) → Label → Bool
  | [], _ => false
  | (k, _) :: t, l => k = l || dictMem t l

/-- Python `sum(d.values())`. -/
def sumValues (d : List (Label × Nat)) : Nat := (d.map Prod.snd).sum

/-- `"green" if total >= 15 else "amber" if total >= 8 else "red"`
(process_video.py line 161 and yolov4_detect.py line 165). -/
def phaseOf (total : Nat) : String :=
  if total ≥ 15 then "green" else if total ≥ 8 then "amber" else "red"

/-- One entry of `sample_detections`, bbox fields as percentages. -/
structure Sample where
  label : Label
  confidence : ℚ
  top : ℚ
  left : ℚ
  width : ℚ
  height : ℚ
  deriving DecidableEq

/-- The mutable per-run aggregation state shared by all three pipelines. -/
structure ProcState where
  vehicle_counts : List (Label × Nat)
  total : Nat
  sample_detections : List Sample
  deriving DecidableEq

/-- The length-capped append of process_video.py lines 52-64,
simulate lines 117-129 and yolov4_detect.py lines 120-130:
`if len(sample_detections) < 20: sample_detections.append(...)`. -/
def capAppend (samples : List Sample) (s : Sample) : List Sample :=
  if samples.length < 20 then samples ++ [s] else samples

/-- One box of `result.boxes` in `run_yolo_inference`: resolved label,
confidence and the `xyxy` pixel corners. -/
structure YoloBox where
  label : Label
  confidence : ℚ
  x1 : ℚ
  y1 : ℚ
  x2 : ℚ
  y2 : ℚ
  deriving DecidableEq

/-- One frame of the ultralytics stream: `frame.shape[0]`, `frame.shape[1]`
and the boxes the model returned for it. -/
structure YoloFrame where
  h : ℚ
  w : ℚ
  boxes : List YoloBox
  deriving DecidableEq

/-- The sample dict built at process_video.py lines 53-64. -/
def yoloSample (fh fw : ℚ) (b : YoloBox) : Sample :=
  { label := b.label
    confidence := round2 b.confidence
    top := round2 (b.y1 / fh * 100)
    left := round2 (b.x1 / fw * 100)
    width := round2 ((b.x2 - b.x1) / fw * 100)
    height := round2 ((b.y2 - b.y1) / fh * 100) }

/-- The per-box body of the loop at process_video.py lines 33-64. -/
def yoloStep (fh fw : ℚ) (st : ProcState) (b : YoloBox) : ProcState :=
  { vehicle_counts := dictIncr st.vehicle_counts b.label
    total := st.total + 1
    sample_detections := capAppend st.sample_detections (yoloSample fh fw b) }

/-- `run_yolo_inference` (process_video.py lines 21-75), restricted to the
state it returns: `(vehicle_counts, total, sample_detections)`. -/
def run_yolo_inference (frames : List YoloFrame) : ProcState :=
  frames.foldl (fun st f => f.boxes.foldl (yoloStep f.h f.w) st)
    { vehicle_counts := [], total := 0, sample_detections := [] }

/-- The initial counts dict of `simulate_processing` (line 92). -/
def simInitCounts : List (Label × Nat) :=
  [("bicycle", 0), ("bus", 0), ("car", 0), ("jeep", 0), ("pedestrian", 0), ("truck", 0)]

/-- The label vocabulary `list(vehicle_counts.keys())` of the simulator. -/
def simLabels : List Label :=
  ["bicycle", "bus", "car", "jeep", "pedestrian", "truck"]

/-- One random box drawn by `simulate_processing` (lines 104-109):
the already-rounded confidence and the integer geometry. -/
structure SimBox where
  label : Label
  confidence : ℚ
  w : ℤ
  h : ℤ
  x : ℤ
  y : ℤ
  deriving DecidableEq

/-- The ranges `random.choice` / `random.uniform` / `random.randint`
guarantee for one generated box (simulate_processing lines 104-109). -/
def simBoxValid (width height : ℤ) (b : SimBox) : Prop :=
  b.label ∈ simLabels ∧
  11/20 ≤ b.confidence ∧ b.confidence ≤ 19/20 ∧
  40 ≤ b.w ∧ b.w ≤ 120 ∧ 40 ≤ b.h ∧ b.h ≤ 120 ∧
  0 ≤ b.x ∧ b.x ≤ max 0 (width - b.w) ∧
  0 ≤ b.y ∧ b.y ≤ max 0 (height - b.h)

instance (width height : ℤ) (b : SimBox) : Decidable (simBoxValid width height b) := by
  unfold simBoxValid; infer_instance

/-- The ranges guaranteed for the boxes of one frame:
`boxes_per_frame = random.randint(1, 4)` draws between 1 and 4 boxes. -/
def simFrameValid (width height : ℤ) (f : List SimBox) : Prop :=
  1 ≤ f.length ∧ f.length ≤ 4 ∧ ∀ b ∈ f, simBoxValid width height b

instance (width height : ℤ) (f : List SimBox) : Decidable (simFrameValid width height f) := by
  unfold simFrameValid; infer_instance

/-- The sample dict built at simulate_processing lines 118-129 (the stored
confidence was already rounded when drawn). -/
def simSample (width height : ℤ) (b : SimBox) : Sample :=
  { label := b.label
    confidence := b.confidence
    top := round2 ((b.y : ℚ) / (height : ℚ) * 100)
    left := round2 ((b.x : ℚ) / (width : ℚ) * 100)
    width := round2 ((b.w : ℚ) / (width : ℚ) * 100)
    height := round2 ((b.h : ℚ) / (height : ℚ) * 100) }

/-- The per-box body of the loop at simulate_processing lines 103-129
(`vehicle_counts[label] += 1`; the drawn label is always a key). -/
def simStep (width height : ℤ) (st : ProcState) (b : SimBox) : ProcState :=
  { vehicle_counts := dictIncr st.vehicle_counts b.label
    total := st.total + 1
    sample_detections := capAppend st.sample_detections (simSample width height b) }

/-- `simulate_processing` (process_video.py lines 78-137), over the frames
actually read and the boxes drawn for each. -/
def simulate_processing (width height : ℤ) (frames : List (List SimBox)) : ProcState :=
  frames.foldl (fun st f => f.foldl (simStep width height) st)
    { vehicle_counts := simInitCounts, total := 0, sample_detections := [] }

/-- The fields of the JSON report that depend on the processing result. -/
structure Report where
  vehicle_counts : List (Label × Nat)
  total_vehicles : Nat
  load_score : Nat
  phase : String
  sample_detections : List Sample
  deriving DecidableEq

/-- The report built in `main` of process_video.py (lines 155-164):
`load_score` is `sum(vehicle_counts.values())`, independently of `total`. -/
def main_report (st : ProcState) : Report :=
  { vehicle_counts := st.vehicle_counts
    total_vehicles := st.total
    load_score := sumValues st.vehicle_counts
    phase := phaseOf st.total
    sample_detections := st.sample_detections }

/-- C2: phase classification is a pure function of the final total with
thresholds 15 and 8: green iff total ≥ 15, amber iff 8 ≤ total < 15, red iff
total < 8; in particular classify(7)=red, classify(8)=amber,
classify(14)=amber, classify(15)=green; both report builders use it. -/
theorem C2_phase_classification (n : ℕ) :
    (phaseOf n = "green" ↔ 15 ≤ n) ∧
    (phaseOf n = "amber" ↔ 8 ≤ n ∧ n < 15) ∧
    (phaseOf n = "red" ↔ n < 8) ∧
    phaseOf 7 = "red" ∧ phaseOf 8 = "amber" ∧
    phaseOf 14 = "amber" ∧ phaseOf 15 = "green" ∧
    (∀ st : ProcState, (main_report st).phase = phaseOf st.total) := by
  have g1 : ¬ ("amber" : String) = "green" := by decide
  have g2 : ¬ ("red" : String) = "green" := by decide
  have g3 : ¬ ("green" : String) = "amber" := by decide
  have g4 : ¬ ("red" : String) = "amber" := by decide
  have g5 : ¬ ("green" : String) = "red" := by decide
  have g6 : ¬ ("amber" : String) = "red" := by decide
  refine ⟨?_, ?_, ?_, by decide, by decide, by decide, by decide, fun st => rfl⟩ <;>
    · unfold phaseOf
      split_ifs with h1 h2 <;> simp_all <;> omega

/-- The vehicle classes accepted at yolov4_detect.py line 81. -/
def vocab4 : List Label := ["car", "bus", "truck", "motorbike"]

/-- The initial counts dict of `detect_cars` (yolov4_detect.py line 57). -/
def detectInitCounts : List (Label × Nat) :=
  [("car", 0), ("bus", 0), ("truck", 0), ("motorbike", 0)]

/-- One row of the raw DNN output in `detect_cars`: the resolved class label,
its score, and `detection[0..3]` (center and size as fractions of the frame).
Rationals have no NaN or infinity, so the guard of lines 88-90 never fires. -/
structure RawDet where
  label : Label
  confidence : ℚ
  cx : ℚ
  cy : ℚ
  w : ℚ
  h : ℚ
  deriving DecidableEq

/-- A candidate box as built at yolov4_detect.py lines 83-97:
integer pixel geometry with the parallel label and confidence. -/
structure PixBox where
  label : Label
  confidence : ℚ
  x : ℤ
  y : ℤ
  w : ℤ
  h : ℤ
  deriving DecidableEq

/-- Normalization of one raw detection (yolov4_detect.py lines 83-95):
every intermediate passes through Python `int()`. -/
def mkCandidate (width_frame height_frame : ℚ) (d : RawDet) : PixBox :=
  let center_x := pyInt (d.cx * width_frame)
  let center_y := pyInt (d.cy * height_frame)
  let w := pyInt (d.w * width_frame)
  let h := pyInt (d.h * height_frame)
  { label := d.label
    confidence := d.confidence
    x := pyInt ((center_x : ℚ) - (w : ℚ) / 2)
    y := pyInt ((center_y : ℚ) - (h : ℚ) / 2)
    w := w
    h := h }

/-- The candidate lists `boxes`/`confidences`/`class_ids` built by the loop at
yolov4_detect.py lines 74-99: only labels in `vocab4` with confidence
strictly above 0.5 survive (line 81). -/
def candidates (width_frame height_frame : ℚ) (raw : List RawDet) : List PixBox :=
  (raw.filter (fun d => decide (d.label ∈ vocab4) && decide ((1 : ℚ)/2 < d.confidence))).map
    (mkCandidate width_frame height_frame)

/-- Intersection area of two axis-aligned pixel rectangles. -/
def interArea (a b : PixBox) : ℤ :=
  max 0 (min (a.x + a.w) (b.x + b.w) - max a.x b.x) *
  max 0 (min (a.y + a.h) (b.y + b.h) - max a.y b.y)

/-- Modelled from the spec (§4.2): `IoU = intersection_area /
(area_a + area_b - intersection_area)`, zero when the boxes do not overlap
(and when the denominator degenerates to zero). -/
def iou (a b : PixBox) : ℚ :=
  if a.w * a.h + b.w * b.h - interArea a b = 0 then 0
  else (interArea a b : ℚ) / ((a.w * a.h + b.w * b.h - interArea a b : ℤ) : ℚ)

/-- Modelled from the spec (§4.2 step 3): the greedy pass of NMS — accept the
first (highest-confidence) remaining detection, drop every remaining one
whose IoU with it exceeds the threshold, repeat. The fuel argument only
bounds the recursion; it is always called with fuel ≥ length. -/
def greedyNMS {α : Type} (iouOf : α → α → ℚ) (t : ℚ) : ℕ → List α → List α
  | _, [] => []
  | 0, _ :: _ => []
  | fuel + 1, d :: rest =>
      d :: greedyNMS iouOf t fuel (rest.filter (fun e => decide (iouOf d e ≤ t)))

/-- Confidence-descending order on candidate boxes. -/
def detGE (a b : PixBox) : Prop := b.confidence ≤ a.confidence

instance : DecidableRel detGE :=
  fun a b => inferInstanceAs (Decidable (b.confidence ≤ a.confidence))

instance : IsTotal PixBox detGE := ⟨fun a b => le_total b.confidence a.confidence⟩

instance : IsTrans PixBox detGE := ⟨fun _ _ _ h1 h2 => le_trans h2 h1⟩

/-- Modelled from the spec (§4.2): `suppress(detections, score_threshold,
iou_threshold)` — drop detections below the score threshold, stable-sort the
rest by confidence descending, then run the greedy pass. The repository
delegates this to the external `cv2.dnn.NMSBoxes`, whose code is not in the
repository; this definition follows the spec's algorithm. -/
def suppress (score_threshold iou_threshold : ℚ) (dets : List PixBox) : List PixBox :=
  let kept :=
    (dets.filter (fun d => decide (score_threshold ≤ d.confidence))).insertionSort detGE
  greedyNMS iou iou_threshold kept.length kept

/-- A candidate box paired with its index in the per-frame `boxes` list
(`cv2.dnn.NMSBoxes` returns indices; the code tests `i in indexes`). -/
abbrev IBox := ℕ × PixBox

/-- `enumFrom n l`: the elements of `l` paired with indices `n, n+1, ...`. -/
def enumIdx (n : ℕ) : List PixBox → List IBox
  | [] => []
  | b :: t => (n, b) :: enumIdx (n + 1) t

/-- Confidence-descending order on indexed candidate boxes. -/
def ibGE (a b : IBox) : Prop := b.2.confidence ≤ a.2.confidence

instance : DecidableRel ibGE :=
  fun a b => inferInstanceAs (Decidable (b.2.confidence ≤ a.2.confidence))

instance : IsTotal IBox ibGE := ⟨fun a b => le_total b.2.confidence a.2.confidence⟩

instance : IsTrans IBox ibGE := ⟨fun _ _ _ h1 h2 => le_trans h2 h1⟩

/-- Modelled from the spec (§4.2): the suppression run by
`cv2.dnn.NMSBoxes(boxes, confidences, 0.5, 0.4)` at yolov4_detect.py line
101, on index-tagged candidates so the surviving indices can be recovered. -/
def nmsIdx (score_threshold iou_threshold : ℚ) (cands : List IBox) : List IBox :=
  let kept :=
    (cands.filter (fun d => decide (score_threshold ≤ d.2.confidence))).insertionSort ibGE
  greedyNMS (fun a b => iou a.2 b.2) iou_threshold kept.length kept

/-- The per-frame candidate list of `detect_cars`, index-tagged. -/
def candidatesI (width_frame height_frame : ℚ) (raw : List RawDet) : List IBox :=
  enumIdx 0 (candidates width_frame height_frame raw)

/-- `indexes = cv2.dnn.NMSBoxes(boxes, confidences, 0.5, 0.4)` (line 101). -/
def keptIdx (width_frame height_frame : ℚ) (raw : List RawDet) : List ℕ :=
  (nmsIdx (1/2) (2/5) (candidatesI width_frame height_frame raw)).map Prod.fst

/-- The detections processed by the loop at yolov4_detect.py lines 103-130:
candidates in original order, kept when their index survived suppression. -/
def frameAccepted (width_frame height_frame : ℚ) (raw : List RawDet) : List PixBox :=
  ((candidatesI width_frame height_frame raw).filter
      (fun p => decide (p.1 ∈ keptIdx width_frame height_frame raw))).map Prod.snd

/-- The sample dict built at yolov4_detect.py lines 121-130. -/
def detectSample (width_frame height_frame : ℚ) (b : PixBox) : Sample :=
  { label := b.label
    confidence := round2 b.confidence
    top := round2 ((b.y : ℚ) / height_frame * 100)
    left := round2 ((b.x : ℚ) / width_frame * 100)
    width := round2 ((b.w : ℚ) / width_frame * 100)
    height := round2 ((b.h : ℚ) / height_frame * 100) }

/-- The per-detection body of the loop at yolov4_detect.py lines 103-130:
`total_cars` always increments; the counts dict only when the label is a key. -/
def detectStep (width_frame height_frame : ℚ) (st : ProcState) (b : PixBox) : ProcState :=
  { vehicle_counts :=
      if dictMem st.vehicle_counts b.label then dictIncr st.vehicle_counts b.label
      else st.vehicle_counts
    total := st.total + 1
    sample_detections := capAppend st.sample_detections (detectSample width_frame height_frame b) }

/-- One frame of the `detect_cars` loop: `height_frame, width_frame, _ =
frame.shape` and the raw detections the network produced for it. -/
structure DetFrame where
  h : ℚ
  w : ℚ
  raw : List RawDet
  deriving DecidableEq

/-- `detect_cars` (yolov4_detect.py lines 40-137), restricted to the state it
returns: `(total_cars, vehicle_counts, sample_detections)`. -/
def detect_cars (frames : List DetFrame) : ProcState :=
  frames.foldl (fun st f => (frameAccepted f.w f.h f.raw).foldl (detectStep f.w f.h) st)
    { vehicle_counts := detectInitCounts, total := 0, sample_detections := [] }

/-- The report built in `__main__` of yolov4_detect.py (lines 159-167):
here `load_score` is `total_cars` itself. -/
def detect_report (st : ProcState) : Report :=
  { vehicle_counts := st.vehicle_counts
    total_vehicles := st.total
    load_score := st.total
    phase := phaseOf st.total
    sample_detections := st.sample_detections }

theorem sumValues_dictIncr (d : List (Label × Nat)) (l : Label) :
    sumValues (dictIncr d l) = sumValues d + 1 := by
  induction d with
  | nil => rfl
  | cons p t ih =>
    obtain ⟨k, v⟩ := p
    by_cases h : k = l <;> simp [dictIncr, h, sumValues] at * <;> omega

theorem dictMem_dictIncr (d : List (Label × Nat)) (k l : Label)
    (h : dictMem d l = true) : dictMem (dictIncr d k) l = true := by
  induction d with
  | nil => simp [dictMem] at h
  | cons p t ih =>
    obtain ⟨k', v⟩ := p
    by_cases hk : k' = k
    · simp [dictIncr, hk]
      simpa [dictMem, hk] using h
    · simp [dictIncr, hk, dictMem] at h ⊢
      rcases h with h | h
      · exact Or.inl h
      · exact Or.inr (ih h)

theorem take_chain {γ : Type} (S A B : List γ) :
    (S ++ A.take (20 - S.length)) ++ B.take (20 - (S ++ A.take (20 - S.length)).length)
      = S ++ (A ++ B).take (20 - S.length) := by
  have h : 20 - (S ++ A.take (20 - S.length)).length = (20 - S.length) - A.length := by
    simp only [List.length_append, List.length_take]
    omega
  rw [h, List.take_append_eq_append_take, List.append_assoc]

/-- The per-detection loop body of each pipeline increments `total` once and
appends at most one sample; over a whole per-frame list the samples grow by a
FIFO-capped prefix and `total` by the list length. -/
theorem foldl_state {β : Type} (step : ProcState → β → ProcState) (g : β → Sample)
    (hsam : ∀ st b, (step st b).sample_detections = capAppend st.sample_detections (g b))
    (htot : ∀ st b, (step st b).total = st.total + 1) :
    ∀ (bs : List β) (st : ProcState),
      (bs.foldl step st).sample_detections
        = st.sample_detections ++ (bs.map g).take (20 - st.sample_detections.length) ∧
      (bs.foldl step st).total = st.total + bs.length := by
  intro bs
  induction bs with
  | nil => intro st; simp
  | cons b t ih =>
    intro st
    rw [List.foldl_cons]
    obtain ⟨ihs, iht⟩ := ih (step st b)
    refine ⟨?_, ?_⟩
    · rw [ihs, hsam]
      simp only [capAppend]
      by_cases h : st.sample_detections.length < 20
      · rw [if_pos h]
        have hlen : (st.sample_detections ++ [g b]).length = st.sample_detections.length + 1 := by
          simp
        have h2 : 20 - st.sample_detections.length
            = (20 - (st.sample_detections.length + 1)) + 1 := by omega
        rw [hlen, List.map_cons, h2, List.take_succ_cons, List.append_assoc,
          List.singleton_append]
      · rw [if_neg h]
        have h0 : 20 - st.sample_detections.length = 0 := by omega
        rw [h0, List.map_cons]
        simp
    · rw [iht, htot]
      simp [List.length_cons]
      omega

/-- Shape shared by the three pipelines: a fold over frames of a fold over
that frame's detections. Samples are the capped FIFO prefix of the flattened
per-frame samples; `total` counts every detection. -/
theorem run_state {φ β : Type} (items : φ → List β) (stepOf : φ → ProcState → β → ProcState)
    (gOf : φ → β → Sample)
    (hsam : ∀ f st b, (stepOf f st b).sample_detections = capAppend st.sample_detections (gOf f b))
    (htot : ∀ f st b, (stepOf f st b).total = st.total + 1)
    (allS : List φ → List Sample)
    (hallNil : allS [] = [])
    (hallCons : ∀ f fs, allS (f :: fs) = (items f).map (gOf f) ++ allS fs) :
    ∀ (frames : List φ) (st : ProcState),
      (frames.foldl (fun st f => (items f).foldl (stepOf f) st) st).sample_detections
        = st.sample_detections ++ (allS frames).take (20 - st.sample_detections.length) ∧
      (frames.foldl (fun st f => (items f).foldl (stepOf f) st) st).total
        = st.total + (allS frames).length := by
  intro frames
  induction frames with
  | nil => intro st; simp [hallNil]
  | cons f fs ih =>
    intro st
    rw [List.foldl_cons]
    obtain ⟨ihs, iht⟩ := ih ((items f).foldl (stepOf f) st)
    obtain ⟨hs, ht⟩ := foldl_state (stepOf f) (gOf f) (hsam f) (htot f) (items f) st
    refine ⟨?_, ?_⟩
    · rw [ihs, hs, hallCons]
      exact take_chain st.sample_detections ((items f).map (gOf f)) (allS fs)
    · rw [iht, ht, hallCons]
      simp [List.length_append]
      omega

/-- Unconditional count bump: `sum(counts.values()) == total` is preserved
by one frame's detections. -/
theorem foldl_sum_total {β : Type} (step : ProcState → β → ProcState)
    (h : ∀ st b, sumValues (step st b).vehicle_counts = sumValues st.vehicle_counts + 1
          ∧ (step st b).total = st.total + 1) :
    ∀ (bs : List β) (st : ProcState),
      sumValues st.vehicle_counts = st.total →
      sumValues (bs.foldl step st).vehicle_counts = (bs.foldl step st).total := by
  intro bs
  induction bs with
  | nil => intro st hst; simpa using hst
  | cons b t ih =>
    intro st hst
    rw [List.foldl_cons]
    exact ih _ (by rw [(h st b).1, (h st b).2, hst])

/-- `sum(counts.values()) == total` propagates through a whole run. -/
theorem run_sum_total {φ β : Type} (items : φ → List β)
    (stepOf : φ → ProcState → β → ProcState)
    (h : ∀ f st b, sumValues (stepOf f st b).vehicle_counts = sumValues st.vehicle_counts + 1
          ∧ (stepOf f st b).total = st.total + 1) :
    ∀ (frames : List φ) (st : ProcState),
      sumValues st.vehicle_counts = st.total →
      sumValues ((frames.foldl (fun st f => (items f).foldl (stepOf f) st) st)).vehicle_counts
        = (frames.foldl (fun st f => (items f).foldl (stepOf f) st) st).total := by
  intro frames
  induction frames with
  | nil => intro st hst; simpa using hst
  | cons f fs ih =>
    intro st hst
    rw [List.foldl_cons]
    exact ih _ (foldl_sum_total (stepOf f) (h f) (items f) st hst)

/-- The flattened sample list of `run_yolo_inference`, in frame order. -/
def yoloAllSamples : List YoloFrame → List Sample
  | [] => []
  | f :: fs => f.boxes.map (yoloSample f.h f.w) ++ yoloAllSamples fs

/-- The flattened sample list of `simulate_processing`, in frame order. -/
def simAllSamples (width height : ℤ) : List (List SimBox) → List Sample
  | [] => []
  | f :: fs => f.map (simSample width height) ++ simAllSamples width height fs

/-- The flattened sample list of `detect_cars`: one sample per detection
surviving suppression, in frame order. -/
def detectAllSamples : List DetFrame → List Sample
  | [] => []
  | f :: fs => (frameAccepted f.w f.h f.raw).map (detectSample f.w f.h) ++ detectAllSamples fs

theorem run_yolo_state (frames : List YoloFrame) :
    (run_yolo_inference frames).sample_detections = (yoloAllSamples frames).take 20 ∧
    (run_yolo_inference frames).total = (yoloAllSamples frames).length := by
  have h := run_state (fun f : YoloFrame => f.boxes) (fun f => yoloStep f.h f.w)
      (fun f => yoloSample f.h f.w) (fun _ _ _ => rfl) (fun _ _ _ => rfl)
      yoloAllSamples rfl (fun _ _ => rfl) frames
      { vehicle_counts := [], total := 0, sample_detections := [] }
  simpa [run_yolo_inference] using h

theorem sim_state (width height : ℤ) (frames : List (List SimBox)) :
    (simulate_processing width height frames).sample_detections
      = (simAllSamples width height frames).take 20 ∧
    (simulate_processing width height frames).total
      = (simAllSamples width height frames).length := by
  have h := run_state (fun f : List SimBox => f) (fun _ => simStep width height)
      (fun _ => simSample width height) (fun _ _ _ => rfl) (fun _ _ _ => rfl)
      (simAllSamples width height) rfl (fun _ _ => rfl) frames
      { vehicle_counts := simInitCounts, total := 0, sample_detections := [] }
  simpa [simulate_processing] using h

theorem detect_state (frames : List DetFrame) :
    (detect_cars frames).sample_detections = (detectAllSamples frames).take 20 ∧
    (detect_cars frames).total = (detectAllSamples frames).length := by
  have h := run_state (fun f : DetFrame => frameAccepted f.w f.h f.raw)
      (fun f => detectStep f.w f.h) (fun f => detectSample f.w f.h)
      (fun _ _ _ => rfl) (fun _ _ _ => rfl)
      detectAllSamples rfl (fun _ _ => rfl) frames
      { vehicle_counts := detectInitCounts, total := 0, sample_detections := [] }
  simpa [detect_cars] using h

theorem greedyNMS_sublist {α : Type} (iouOf : α → α → ℚ) (t : ℚ) :
    ∀ (fuel : ℕ) (l : List α), List.Sublist (greedyNMS iouOf t fuel l) l := by
  intro fuel
  induction fuel with
  | zero => intro l; cases l <;> simp [greedyNMS]
  | succ n ih =>
    intro l
    cases l with
    | nil => simp [greedyNMS]
    | cons d rest =>
      simp only [greedyNMS]
      exact List.Sublist.cons₂ d ((ih _).trans (List.filter_sublist rest))

theorem greedyNMS_pairwise {α : Type} (iouOf : α → α → ℚ) (t : ℚ) :
    ∀ (fuel : ℕ) (l : List α), l.length ≤ fuel →
      (greedyNMS iouOf t fuel l).Pairwise (fun a b => iouOf a b ≤ t) := by
  intro fuel
  induction fuel with
  | zero =>
    intro l hl
    cases l with
    | nil => simp [greedyNMS]
    | cons d rest => simp at hl
  | succ n ih =>
    intro l hl
    cases l with
    | nil => simp [greedyNMS]
    | cons d rest =>
      simp only [greedyNMS]
      rw [List.pairwise_cons]
      refine ⟨?_, ih _ ?_⟩
      · intro e he
        have hmem : e ∈ rest.filter (fun e => decide (iouOf d e ≤ t)) :=
          (greedyNMS_sublist iouOf t n _).subset he
        exact of_decide_eq_true (List.mem_filter.mp hmem).2
      · calc (rest.filter fun e => decide (iouOf d e ≤ t)).length
            ≤ rest.length := List.length_filter_le _ _
          _ ≤ n := by simpa using Nat.le_of_succ_le_succ hl

theorem greedyNMS_eq_self {α : Type} (iouOf : α → α → ℚ) (t : ℚ) :
    ∀ (fuel : ℕ) (l : List α), l.length ≤ fuel →
      l.Pairwise (fun a b => iouOf a b ≤ t) → greedyNMS iouOf t fuel l = l := by
  intro fuel
  induction fuel with
  | zero =>
    intro l hl _
    cases l with
    | nil => simp [greedyNMS]
    | cons d rest => simp at hl
  | succ n ih =>
    intro l hl hp
    cases l with
    | nil => simp [greedyNMS]
    | cons d rest =>
      rw [List.pairwise_cons] at hp
      have hf : rest.filter (fun e => decide (iouOf d e ≤ t)) = rest :=
        List.filter_eq_self.mpr (fun e he => decide_eq_true (hp.1 e he))
      simp only [greedyNMS, hf]
      rw [ih rest (by simpa using Nat.le_of_succ_le_succ hl) hp.2]

theorem enumIdx_mem_le : ∀ (l : List PixBox) (n : ℕ) (p : IBox), p ∈ enumIdx n l → n ≤ p.1 := by
  intro l
  induction l with
  | nil => intro n p hp; simp [enumIdx] at hp
  | cons b t ih =>
    intro n p hp
    simp only [enumIdx, List.mem_cons] at hp
    rcases hp with h | h
    · rw [h]
    · exact le_trans (Nat.le_succ n) (ih (n + 1) p h)

theorem enumIdx_snd_mem : ∀ (l : List PixBox) (n : ℕ) (p : IBox), p ∈ enumIdx n l → p.2 ∈ l := by
  intro l
  induction l with
  | nil => intro n p hp; simp [enumIdx] at hp
  | cons b t ih =>
    intro n p hp
    simp only [enumIdx, List.mem_cons] at hp
    rcases hp with h | h
    · rw [h]; exact List.mem_cons_self b t
    · exact List.mem_cons_of_mem b (ih (n + 1) p h)

theorem enumIdx_pairwise_lt : ∀ (l : List PixBox) (n : ℕ),
    (enumIdx n l).Pairwise (fun p q : IBox => p.1 < q.1) := by
  intro l
  induction l with
  | nil => intro n; simp [enumIdx]
  | cons b t ih =>
    intro n
    simp only [enumIdx]
    rw [List.pairwise_cons]
    exact ⟨fun q hq => lt_of_lt_of_le (Nat.lt_succ_self n) (enumIdx_mem_le t (n + 1) q hq),
      ih (n + 1)⟩

theorem enumIdx_inj : ∀ (l : List PixBox) (n : ℕ) (p q : IBox),
    p ∈ enumIdx n l → q ∈ enumIdx n l → p.1 = q.1 → p = q := by
  intro l
  induction l with
  | nil => intro n p q hp _ _; simp [enumIdx] at hp
  | cons b t ih =>
    intro n p q hp hq he
    simp only [enumIdx, List.mem_cons] at hp hq
    rcases hp with hp | hp <;> rcases hq with hq | hq
    · rw [hp, hq]
    · exfalso
      have := enumIdx_mem_le t (n + 1) q hq
      rw [hp] at he
      omega
    · exfalso
      have := enumIdx_mem_le t (n + 1) p hp
      rw [hq] at he
      omega
    · exact ih (n + 1) p q hp hq he

theorem interArea_comm (a b : PixBox) : interArea a b = interArea b a := by
  unfold interArea
  rw [min_comm (a.x + a.w), max_comm a.x, min_comm (a.y + a.h), max_comm a.y]

theorem iou_comm (a b : PixBox) : iou a b = iou b a := by
  unfold iou
  rw [interArea_comm, add_comm (a.w * a.h) (b.w * b.h)]

theorem suppress_subset (st it : ℚ) (l : List PixBox) :
    ∀ b ∈ suppress st it l, b ∈ l ∧ st ≤ b.confidence := by
  intro b hb
  unfold suppress at hb
  have h1 : b ∈ (l.filter (fun d => decide (st ≤ d.confidence))).insertionSort detGE :=
    (greedyNMS_sublist _ _ _ _).subset hb
  have h2 : b ∈ l.filter (fun d => decide (st ≤ d.confidence)) :=
    (List.mem_insertionSort detGE).mp h1
  have h3 := List.mem_filter.mp h2
  exact ⟨h3.1, of_decide_eq_true h3.2⟩

theorem suppress_sorted (st it : ℚ) (l : List PixBox) : (suppress st it l).Pairwise detGE := by
  unfold suppress
  exact List.Pairwise.sublist (greedyNMS_sublist _ _ _ _) (List.sorted_insertionSort detGE _)

theorem suppress_pairwise (st it : ℚ) (l : List PixBox) :
    (suppress st it l).Pairwise (fun a b => iou a b ≤ it) := by
  unfold suppress
  exact greedyNMS_pairwise iou it _ _ le_rfl

theorem suppress_eq_self (st it : ℚ) (l : List PixBox)
    (hconf : ∀ b ∈ l, st ≤ b.confidence)
    (hsorted : l.Pairwise detGE)
    (hpw : l.Pairwise (fun a b => iou a b ≤ it)) :
    suppress st it l = l := by
  unfold suppress
  rw [List.filter_eq_self.mpr (fun b hb => decide_eq_true (hconf b hb)),
    List.Sorted.insertionSort_eq hsorted]
  exact greedyNMS_eq_self iou it l.length l le_rfl hpw

theorem nmsIdx_subset (st it : ℚ) (cands : List IBox) :
    ∀ p ∈ nmsIdx st it cands, p ∈ cands ∧ st ≤ p.2.confidence := by
  intro p hp
  unfold nmsIdx at hp
  have h1 : p ∈ (cands.filter (fun d => decide (st ≤ d.2.confidence))).insertionSort ibGE :=
    (greedyNMS_sublist _ _ _ _).subset hp
  have h2 : p ∈ cands.filter (fun d => decide (st ≤ d.2.confidence)) :=
    (List.mem_insertionSort ibGE).mp h1
  have h3 := List.mem_filter.mp h2
  exact ⟨h3.1, of_decide_eq_true h3.2⟩

theorem nmsIdx_pairwise (st it : ℚ) (cands : List IBox) :
    (nmsIdx st it cands).Pairwise (fun a b : IBox => iou a.2 b.2 ≤ it) := by
  unfold nmsIdx
  exact greedyNMS_pairwise (fun a b : IBox => iou a.2 b.2) it _ _ le_rfl

theorem mem_candidates (wf hf : ℚ) (raw : List RawDet) :
    ∀ b ∈ candidates wf hf raw, b.label ∈ vocab4 ∧ 1/2 < b.confidence := by
  intro b hb
  unfold candidates at hb
  obtain ⟨d, hd, hbd⟩ := List.mem_map.mp hb
  have h2 := (List.mem_filter.mp hd).2
  simp only [Bool.and_eq_true, decide_eq_true_eq] at h2
  have hl : b.label = d.label := by rw [← hbd]; rfl
  have hc : b.confidence = d.confidence := by rw [← hbd]; rfl
  rw [hl, hc]
  exact h2

theorem mem_frameAccepted (wf hf : ℚ) (raw : List RawDet) :
    ∀ b ∈ frameAccepted wf hf raw, b ∈ candidates wf hf raw := by
  intro b hb
  unfold frameAccepted at hb
  obtain ⟨p, hp, hpb⟩ := List.mem_map.mp hb
  have hp1 : p ∈ candidatesI wf hf raw := (List.mem_filter.mp hp).1
  unfold candidatesI at hp1
  rw [← hpb]
  exact enumIdx_snd_mem _ 0 p hp1

theorem frameAccepted_pairwise (wf hf : ℚ) (raw : List RawDet) :
    (frameAccepted wf hf raw).Pairwise (fun a b => iou a b ≤ 2/5) := by
  unfold frameAccepted
  rw [List.pairwise_map]
  have hfil : ((candidatesI wf hf raw).filter
      (fun p => decide (p.1 ∈ keptIdx wf hf raw))).Pairwise (fun p q : IBox => p.1 < q.1) := by
    apply List.Pairwise.filter
    unfold candidatesI
    exact enumIdx_pairwise_lt _ 0
  refine List.Pairwise.imp_of_mem ?_ hfil
  intro p q hp hq hlt
  have hmemK : ∀ r : IBox, r ∈ (candidatesI wf hf raw).filter
      (fun p => decide (p.1 ∈ keptIdx wf hf raw)) →
      r ∈ nmsIdx (1/2) (2/5) (candidatesI wf hf raw) := by
    intro r hr
    have hidx : r.1 ∈ keptIdx wf hf raw := of_decide_eq_true (List.mem_filter.mp hr).2
    unfold keptIdx at hidx
    obtain ⟨r', hr', hfst⟩ := List.mem_map.mp hidx
    have hr'c : r' ∈ candidatesI wf hf raw := (nmsIdx_subset _ _ _ r' hr').1
    have hrc : r ∈ candidatesI wf hf raw := (List.mem_filter.mp hr).1
    unfold candidatesI at hr'c hrc
    have : r' = r := enumIdx_inj _ 0 r' r hr'c hrc hfst
    rwa [this] at hr'
  have hpK := hmemK p hp
  have hqK := hmemK q hq
  have hne : p ≠ q := by
    intro h
    rw [h] at hlt
    omega
  have hsym : Symmetric (fun a b : IBox => iou a.2 b.2 ≤ 2/5) := by
    intro a b h
    rwa [iou_comm]
  exact List.Pairwise.forall hsym (nmsIdx_pairwise _ _ _) hpK hqK hne

theorem frameAccepted_conf (wf hf : ℚ) (raw : List RawDet) :
    ∀ b ∈ frameAccepted wf hf raw, 1/2 ≤ b.confidence := fun b hb =>
  le_of_lt (mem_candidates wf hf raw b (mem_frameAccepted wf hf raw b hb)).2

theorem frameAccepted_label (wf hf : ℚ) (raw : List RawDet) :
    ∀ b ∈ frameAccepted wf hf raw, b.label ∈ vocab4 := fun b hb =>
  (mem_candidates wf hf raw b (mem_frameAccepted wf hf raw b hb)).1

theorem roundHalfEven_intCast (n : ℤ) : roundHalfEven ((n : ℚ)) = n := by
  unfold roundHalfEven
  rw [Int.floor_intCast, if_pos]
  norm_num

theorem round2_eq (q : ℚ) (k : ℤ) (h : q * 100 = (k : ℚ)) : round2 q = (k : ℚ) / 100 := by
  unfold round2
  rw [h, roundHalfEven_intCast]

theorem ceil_intCast_eval (n : ℤ) (q : ℚ) (h : q = (n : ℚ)) : ⌈q⌉ = n := by
  rw [h, Int.ceil_intCast]

theorem pyInt_intCast (n : ℤ) : pyInt ((n : ℚ)) = n := by
  unfold pyInt
  rcases le_or_lt 0 n with h | h
  · rw [if_pos (by exact_mod_cast h), Int.floor_intCast]
  · have hq : (n : ℚ) < 0 := by exact_mod_cast h
    rw [if_neg (not_le.mpr hq), Int.ceil_intCast]

theorem candidates_singleton (wf hf : ℚ) (d : RawDet)
    (h1 : d.label ∈ vocab4) (h2 : 1/2 < d.confidence) :
    candidates wf hf [d] = [mkCandidate wf hf d] := by
  unfold candidates
  have hp : (decide (d.label ∈ vocab4) && decide ((1:ℚ)/2 < d.confidence)) = true := by
    simp only [Bool.and_eq_true, decide_eq_true_eq]
    exact ⟨h1, h2⟩
  simp only [List.filter_cons, List.filter_nil, hp, if_true, List.map_cons, List.map_nil]

theorem nmsIdx_singleton (st it : ℚ) (p : IBox) (h : st ≤ p.2.confidence) :
    nmsIdx st it [p] = [p] := by
  unfold nmsIdx
  have hp : decide (st ≤ p.2.confidence) = true := decide_eq_true h
  simp only [List.filter_cons, List.filter_nil, hp, if_true]
  rfl

theorem frameAccepted_singleton (wf hf : ℚ) (d : RawDet)
    (h1 : d.label ∈ vocab4) (h2 : 1/2 < d.confidence) :
    frameAccepted wf hf [d] = [mkCandidate wf hf d] := by
  unfold frameAccepted keptIdx candidatesI
  rw [candidates_singleton wf hf d h1 h2,
    show enumIdx 0 [mkCandidate wf hf d] = [(0, mkCandidate wf hf d)] from rfl,
    nmsIdx_singleton (1/2) (2/5) (0, mkCandidate wf hf d) (le_of_lt h2)]
  simp

theorem detect_cars_singleton (fh fw : ℚ) (d : RawDet)
    (h1 : d.label ∈ vocab4) (h2 : 1/2 < d.confidence) :
    (detect_cars [⟨fh, fw, [d]⟩]).sample_detections
      = [detectSample fw fh (mkCandidate fw fh d)] := by
  have h := (detect_state [⟨fh, fw, [d]⟩]).1
  rw [h]
  unfold detectAllSamples
  rw [frameAccepted_singleton fw fh d h1 h2]
  rfl

theorem run_yolo_singleton (fh fw : ℚ) (b : YoloBox) :
    (run_yolo_inference [⟨fh, fw, [b]⟩]).sample_detections = [yoloSample fh fw b] := by
  have h := (run_yolo_state [⟨fh, fw, [b]⟩]).1
  rw [h]
  rfl

theorem detect_foldl_inv (wf hf : ℚ) :
    ∀ (bs : List PixBox), (∀ b ∈ bs, b.label ∈ vocab4) →
      ∀ st : ProcState,
        (sumValues st.vehicle_counts = st.total ∧
          ∀ l ∈ vocab4, dictMem st.vehicle_counts l = true) →
        (sumValues (bs.foldl (detectStep wf hf) st).vehicle_counts
            = (bs.foldl (detectStep wf hf) st).total ∧
          ∀ l ∈ vocab4, dictMem (bs.foldl (detectStep wf hf) st).vehicle_counts l = true) := by
  intro bs
  induction bs with
  | nil => intro _ st h; simpa using h
  | cons b t ih =>
    intro hbs st h
    rw [List.foldl_cons]
    apply ih (fun x hx => hbs x (List.mem_cons_of_mem b hx))
    have hmem : dictMem st.vehicle_counts b.label = true :=
      h.2 b.label (hbs b (List.mem_cons_self b t))
    constructor
    · simp only [detectStep, hmem, if_true]
      rw [sumValues_dictIncr, h.1]
    · intro l hl
      simp only [detectStep, hmem, if_true]
      exact dictMem_dictIncr _ _ _ (h.2 l hl)

theorem detect_run_inv :
    ∀ (frames : List DetFrame) (st : ProcState),
      (sumValues st.vehicle_counts = st.total ∧
        ∀ l ∈ vocab4, dictMem st.vehicle_counts l = true) →
      (sumValues ((frames.foldl
            (fun st f => (frameAccepted f.w f.h f.raw).foldl (detectStep f.w f.h) st) st)).vehicle_counts
          = (frames.foldl
            (fun st f => (frameAccepted f.w f.h f.raw).foldl (detectStep f.w f.h) st) st).total ∧
        ∀ l ∈ vocab4, dictMem ((frames.foldl
            (fun st f => (frameAccepted f.w f.h f.raw).foldl (detectStep f.w f.h) st) st)).vehicle_counts l = true) := by
  intro frames
  induction frames with
  | nil => intro st h; simpa using h
  | cons f fs ih =>
    intro st h
    rw [List.foldl_cons]
    exact ih _ (detect_foldl_inv f.w f.h _ (frameAccepted_label f.w f.h f.raw) _ h)

theorem detect_sum_total (frames : List DetFrame) :
    sumValues (detect_cars frames).vehicle_counts = (detect_cars frames).total := by
  have h := detect_run_inv frames
      { vehicle_counts := detectInitCounts, total := 0, sample_detections := [] }
      ⟨by decide, by decide⟩
  exact h.1

theorem yolo_sum_total (frames : List YoloFrame) :
    sumValues (run_yolo_inference frames).vehicle_counts = (run_yolo_inference frames).total := by
  have h := run_sum_total (fun f : YoloFrame => f.boxes) (fun f => yoloStep f.h f.w)
      (fun f st b => ⟨by simp only [yoloStep]; rw [sumValues_dictIncr], rfl⟩) frames
      { vehicle_counts := [], total := 0, sample_detections := [] } rfl
  exact h

theorem sim_sum_total (width height : ℤ) (frames : List (List SimBox)) :
    sumValues (simulate_processing width height frames).vehicle_counts
      = (simulate_processing width height frames).total := by
  have h := run_sum_total (fun f : List SimBox => f) (fun _ => simStep width height)
      (fun _ st b => ⟨by simp only [simStep]; rw [sumValues_dictIncr], rfl⟩) frames
      { vehicle_counts := simInitCounts, total := 0, sample_detections := [] } (by decide)
  exact h

theorem yoloAllSamples_append (fs gs : List YoloFrame) :
    yoloAllSamples (fs ++ gs) = yoloAllSamples fs ++ yoloAllSamples gs := by
  induction fs with
  | nil => simp [yoloAllSamples]
  | cons f t ih => simp [yoloAllSamples, ih]

theorem detectAllSamples_append (fs gs : List DetFrame) :
    detectAllSamples (fs ++ gs) = detectAllSamples fs ++ detectAllSamples gs := by
  induction fs with
  | nil => simp [detectAllSamples]
  | cons f t ih => simp [detectAllSamples, ih]

theorem simAllSamples_append (width height : ℤ) (fs gs : List (List SimBox)) :
    simAllSamples width height (fs ++ gs)
      = simAllSamples width height fs ++ simAllSamples width height gs := by
  induction fs with
  | nil => simp [simAllSamples]
  | cons f t ih => simp [simAllSamples, ih]

theorem simAllSamples_length (width height : ℤ) :
    ∀ frames : List (List SimBox),
      (simAllSamples width height frames).length = (frames.map List.length).sum := by
  intro frames
  induction frames with
  | nil => rfl
  | cons f fs ih => simp [simAllSamples, ih]

theorem sum_lengths_bounds (width height : ℤ) :
    ∀ frames : List (List SimBox), (∀ f ∈ frames, simFrameValid width height f) →
      frames.length ≤ (frames.map List.length).sum ∧
      (frames.map List.length).sum ≤ 4 * frames.length := by
  intro frames
  induction frames with
  | nil => intro _; simp
  | cons f fs ih =>
    intro hv
    obtain ⟨hlo, hhi, _⟩ := hv f (List.mem_cons_self f fs)
    obtain ⟨h1, h2⟩ := ih (fun g hg => hv g (List.mem_cons_of_mem f hg))
    simp only [List.map_cons, List.sum_cons, List.length_cons]
    constructor <;> omega

/-- The flattened per-frame dimensioned box list of `run_yolo_inference`:
`(frame.shape[0], frame.shape[1], box)` per surviving box, in frame order. -/
def yoloAllBoxes : List YoloFrame → List (ℚ × ℚ × YoloBox)
  | [] => []
  | f :: fs => f.boxes.map (fun b => (f.h, f.w, b)) ++ yoloAllBoxes fs

/-- The flattened dimensioned accepted-box list of `detect_cars`:
`(width_frame, height_frame, box)` per accepted box, in frame order. -/
def detectAllBoxes : List DetFrame → List (ℚ × ℚ × PixBox)
  | [] => []
  | f :: fs => (frameAccepted f.w f.h f.raw).map (fun b => (f.w, f.h, b)) ++ detectAllBoxes fs

theorem yoloAllSamples_eq_map (frames : List YoloFrame) :
    yoloAllSamples frames
      = (yoloAllBoxes frames).map (fun p => yoloSample p.1 p.2.1 p.2.2) := by
  induction frames with
  | nil => rfl
  | cons f fs ih =>
    simp only [yoloAllSamples, yoloAllBoxes, List.map_append, List.map_map, ih]
    rfl

theorem detectAllSamples_eq_map (frames : List DetFrame) :
    detectAllSamples frames
      = (detectAllBoxes frames).map (fun p => detectSample p.1 p.2.1 p.2.2) := by
  induction frames with
  | nil => rfl
  | cons f fs ih =>
    simp only [detectAllSamples, detectAllBoxes, List.map_append, List.map_map, ih]
    rfl

/-- C1: in every run that produces a report, `total_vehicles` equals the sum
of all `vehicle_counts` values, and `load_score` equals `total_vehicles` —
for the ultralytics path and the simulated path of process_video.py `main`,
and for the yolov4_detect.py `__main__` report (where the simulated path is
taken over the label vocabulary the generator actually draws from). -/
theorem C1_report_totals :
    (∀ frames : List YoloFrame,
      (main_report (run_yolo_inference frames)).total_vehicles
        = sumValues (main_report (run_yolo_inference frames)).vehicle_counts ∧
      (main_report (run_yolo_inference frames)).load_score
        = (main_report (run_yolo_inference frames)).total_vehicles) ∧
    (∀ (width height : ℤ) (frames : List (List SimBox)),
      (∀ f ∈ frames, ∀ b ∈ f, b.label ∈ simLabels) →
      (main_report (simulate_processing width height frames)).total_vehicles
        = sumValues (main_report (simulate_processing width height frames)).vehicle_counts ∧
      (main_report (simulate_processing width height frames)).load_score
        = (main_report (simulate_processing width height frames)).total_vehicles) ∧
    (∀ frames : List DetFrame,
      (detect_report (detect_cars frames)).total_vehicles
        = sumValues (detect_report (detect_cars frames)).vehicle_counts ∧
      (detect_report (detect_cars frames)).load_score
        = (detect_report (detect_cars frames)).total_vehicles) := by
  refine ⟨fun frames => ⟨?_, ?_⟩, fun width height frames _ => ⟨?_, ?_⟩,
    fun frames => ⟨?_, ?_⟩⟩
  · exact (yolo_sum_total frames).symm
  · exact yolo_sum_total frames
  · exact (sim_sum_total width height frames).symm
  · exact sim_sum_total width height frames
  · exact (detect_sum_total frames).symm
  · rfl

/-- C1 witness: the equality holds on a concrete one-frame simulated run. -/
theorem C1_report_totals_witness :
    (main_report (simulate_processing 640 360 [[⟨"car", 3/5, 40, 40, 0, 0⟩]])).load_score
      = (main_report (simulate_processing 640 360 [[⟨"car", 3/5, 40, 40, 0, 0⟩]])).total_vehicles :=
  (C1_report_totals.2.1 640 360 [[⟨"car", 3/5, 40, 40, 0, 0⟩]]
    (by
      intro f hf b hb
      rw [List.mem_singleton.mp hf] at hb
      rw [List.mem_singleton.mp hb]
      simp [simLabels])).2

/-- C3: `sample_detections` is a FIFO-capped prefix in every pipeline: it
equals the first 20 of the flattened per-detection samples in
frame-then-within-frame order, its length is `min 20 total`, hence at most
20, and extending the run only ever appends — entries are never removed,
replaced or reordered, and nothing is added once 20 exist. -/
theorem C3_samples_fifo :
    (∀ frames : List YoloFrame,
      (run_yolo_inference frames).sample_detections = (yoloAllSamples frames).take 20 ∧
      (run_yolo_inference frames).sample_detections.length
        = min 20 (run_yolo_inference frames).total ∧
      (run_yolo_inference frames).sample_detections.length ≤ 20) ∧
    (∀ frames more : List YoloFrame, ∃ ext,
      (run_yolo_inference frames).sample_detections ++ ext
        = (run_yolo_inference (frames ++ more)).sample_detections) ∧
    (∀ frames : List DetFrame,
      (detect_cars frames).sample_detections = (detectAllSamples frames).take 20 ∧
      (detect_cars frames).sample_detections.length
        = min 20 (detect_cars frames).total ∧
      (detect_cars frames).sample_detections.length ≤ 20) ∧
    (∀ frames more : List DetFrame, ∃ ext,
      (detect_cars frames).sample_detections ++ ext
        = (detect_cars (frames ++ more)).sample_detections) ∧
    (∀ (width height : ℤ) (frames : List (List SimBox)),
      (simulate_processing width height frames).sample_detections
        = (simAllSamples width height frames).take 20 ∧
      (simulate_processing width height frames).sample_detections.length
        = min 20 (simulate_processing width height frames).total ∧
      (simulate_processing width height frames).sample_detections.length ≤ 20) ∧
    (∀ (width height : ℤ) (frames more : List (List SimBox)), ∃ ext,
      (simulate_processing width height frames).sample_detections ++ ext
        = (simulate_processing width height (frames ++ more)).sample_detections) := by
  refine ⟨fun frames => ⟨(run_yolo_state frames).1, ?_, ?_⟩,
    fun frames more => ⟨(yoloAllSamples more).take (20 - (yoloAllSamples frames).length), ?_⟩,
    fun frames => ⟨(detect_state frames).1, ?_, ?_⟩,
    fun frames more => ⟨(detectAllSamples more).take (20 - (detectAllSamples frames).length), ?_⟩,
    fun width height frames => ⟨(sim_state width height frames).1, ?_, ?_⟩,
    fun width height frames more =>
      ⟨(simAllSamples width height more).take (20 - (simAllSamples width height frames).length), ?_⟩⟩
  · rw [(run_yolo_state frames).1, (run_yolo_state frames).2, List.length_take]
  · rw [(run_yolo_state frames).1, List.length_take]
    exact min_le_left _ _
  · rw [(run_yolo_state frames).1, (run_yolo_state (frames ++ more)).1,
      yoloAllSamples_append, List.take_append_eq_append_take]
  · rw [(detect_state frames).1, (detect_state frames).2, List.length_take]
  · rw [(detect_state frames).1, List.length_take]
    exact min_le_left _ _
  · rw [(detect_state frames).1, (detect_state (frames ++ more)).1,
      detectAllSamples_append, List.take_append_eq_append_take]
  · rw [(sim_state width height frames).1, (sim_state width height frames).2, List.length_take]
  · rw [(sim_state width height frames).1, List.length_take]
    exact min_le_left _ _
  · rw [(sim_state width height frames).1, (sim_state width height (frames ++ more)).1,
      simAllSamples_append, List.take_append_eq_append_take]

/-- C9: the spec's greedy suppression with score threshold 0.5 and IoU
threshold 0.4 is idempotent. -/
theorem C9_suppress_idempotent (dets : List PixBox) :
    suppress (1/2) (2/5) (suppress (1/2) (2/5) dets) = suppress (1/2) (2/5) dets :=
  suppress_eq_self (1/2) (2/5) (suppress (1/2) (2/5) dets)
    (fun b hb => (suppress_subset (1/2) (2/5) dets b hb).2)
    (suppress_sorted (1/2) (2/5) dets) (suppress_pairwise (1/2) (2/5) dets)

/-- C4 counterexample: in the `run_yolo_inference` variant nothing is
suppressed or thresholded — a detection of confidence 0.3 < 0.5 is counted
and reported, so the claim does not hold for every detector variant. -/
theorem C4_counterexample :
    ¬ (∀ frames : List YoloFrame, ∀ s ∈ (run_yolo_inference frames).sample_detections,
        1/2 ≤ s.confidence) := by
  intro h
  have hs := run_yolo_singleton 100 100 ⟨"car", 3/10, 10, 10, 50, 50⟩
  have hmem : yoloSample 100 100 ⟨"car", 3/10, 10, 10, 50, 50⟩
      ∈ (run_yolo_inference [⟨100, 100, [⟨"car", 3/10, 10, 10, 50, 50⟩]⟩]).sample_detections := by
    rw [hs]
    exact List.mem_singleton_self _
  have hc := h _ _ hmem
  rw [show (yoloSample 100 100 ⟨"car", 3/10, 10, 10, 50, 50⟩).confidence
      = round2 ((3:ℚ)/10) from rfl,
    round2_eq ((3:ℚ)/10) 30 (by norm_num)] at hc
  norm_num at hc

/-- C4 (amended): in the `detect_cars` variant, with `cv2.dnn.NMSBoxes`
modelled by the spec's greedy NMS at thresholds 0.5/0.4, any two accepted
detections of a frame have IoU at most 0.4 and every accepted detection has
confidence above 0.5; the ultralytics and simulated variants of
process_video.py apply no suppression of their own. -/
theorem C4_detect_suppression (width_frame height_frame : ℚ) (raw : List RawDet) :
    (frameAccepted width_frame height_frame raw).Pairwise (fun a b => iou a b ≤ 2/5) ∧
    (∀ b ∈ frameAccepted width_frame height_frame raw, 1/2 ≤ b.confidence) ∧
    (∀ b ∈ frameAccepted width_frame height_frame raw, 1/2 < b.confidence) :=
  ⟨frameAccepted_pairwise width_frame height_frame raw,
    frameAccepted_conf width_frame height_frame raw,
    fun b hb => (mem_candidates width_frame height_frame raw b
      (mem_frameAccepted width_frame height_frame raw b hb)).2⟩

/-- C5 counterexample: the code truncates with Python `int()` at every
intermediate, so the exact formulas fail off the integer grid: for
`w = 0.015` on a 100-wide frame the code stores `w_px = int(1.5) = 1`,
not `w * frame_width = 1.5`. -/
theorem C5_counterexample :
    ¬ (∀ (d : RawDet) (width_frame height_frame : ℚ),
        ((mkCandidate width_frame height_frame d).x : ℚ)
            = d.cx * width_frame - d.w * width_frame / 2 ∧
        ((mkCandidate width_frame height_frame d).y : ℚ)
            = d.cy * height_frame - d.h * height_frame / 2 ∧
        ((mkCandidate width_frame height_frame d).w : ℚ) = d.w * width_frame ∧
        ((mkCandidate width_frame height_frame d).h : ℚ) = d.h * height_frame) := by
  intro h
  have hw := (h ⟨"car", 3/5, 1/2, 1/2, 3/200, 1/5⟩ 100 100).2.2.1
  have hval : (mkCandidate 100 100 ⟨"car", 3/5, 1/2, 1/2, 3/200, 1/5⟩).w = 1 := by
    norm_num [mkCandidate, pyInt]
  rw [hval] at hw
  norm_num at hw

/-- C5 (amended): normalization computes the spec's formulas up to Python
`int()` truncation of each intermediate; whenever `cx*W`, `cy*H`, `w*W`,
`h*H` are integers with `w*W` and `h*H` even, no truncation occurs and the
pixel box equals `x = cx*W - w*W/2`, `y = cy*H - h*H/2`, `w_px = w*W`,
`h_px = h*H` exactly — in particular `cx=cy=0.5`, `w=h=0.2` on a 100×100
frame yields the box (40, 40, 20, 20). -/
theorem C5_normalization (d : RawDet) (width_frame height_frame : ℚ) (a b c e : ℤ)
    (ha : d.cx * width_frame = (a : ℚ)) (hb : d.cy * height_frame = (b : ℚ))
    (hc : d.w * width_frame = (c : ℚ)) (he : d.h * height_frame = (e : ℚ))
    (hc2 : c % 2 = 0) (he2 : e % 2 = 0) :
    ((mkCandidate width_frame height_frame d).x : ℚ)
        = d.cx * width_frame - d.w * width_frame / 2 ∧
    ((mkCandidate width_frame height_frame d).y : ℚ)
        = d.cy * height_frame - d.h * height_frame / 2 ∧
    ((mkCandidate width_frame height_frame d).w : ℚ) = d.w * width_frame ∧
    ((mkCandidate width_frame height_frame d).h : ℚ) = d.h * height_frame := by
  obtain ⟨m, hm⟩ : ∃ m, c = 2 * m := ⟨c / 2, by omega⟩
  obtain ⟨k, hk⟩ : ∃ k, e = 2 * k := ⟨e / 2, by omega⟩
  have hxval : (mkCandidate width_frame height_frame d).x
      = pyInt ((pyInt (d.cx * width_frame) : ℚ) - (pyInt (d.w * width_frame) : ℚ) / 2) := rfl
  have hyval : (mkCandidate width_frame height_frame d).y
      = pyInt ((pyInt (d.cy * height_frame) : ℚ) - (pyInt (d.h * height_frame) : ℚ) / 2) := rfl
  have hwval : (mkCandidate width_frame height_frame d).w = pyInt (d.w * width_frame) := rfl
  have hhval : (mkCandidate width_frame height_frame d).h = pyInt (d.h * height_frame) := rfl
  refine ⟨?_, ?_, ?_, ?_⟩
  · rw [hxval, ha, hc, pyInt_intCast, pyInt_intCast,
      show ((a : ℚ)) - (c : ℚ) / 2 = ((a - m : ℤ) : ℚ) by rw [hm]; push_cast; ring,
      pyInt_intCast]
  · rw [hyval, hb, he, pyInt_intCast, pyInt_intCast,
      show ((b : ℚ)) - (e : ℚ) / 2 = ((b - k : ℤ) : ℚ) by rw [hk]; push_cast; ring,
      pyInt_intCast]
  · rw [hwval, hc, pyInt_intCast]
  · rw [hhval, he, pyInt_intCast]

/-- C5 witness: the claim's concrete instance — `cx=cy=0.5`, `w=h=0.2` on a
100×100 frame normalizes to the pixel box (40, 40, 20, 20). -/
theorem C5_normalization_witness :
    ((mkCandidate 100 100 ⟨"car", 3/5, 1/2, 1/2, 1/5, 1/5⟩).x : ℚ) = 40 ∧
    ((mkCandidate 100 100 ⟨"car", 3/5, 1/2, 1/2, 1/5, 1/5⟩).y : ℚ) = 40 ∧
    ((mkCandidate 100 100 ⟨"car", 3/5, 1/2, 1/2, 1/5, 1/5⟩).w : ℚ) = 20 ∧
    ((mkCandidate 100 100 ⟨"car", 3/5, 1/2, 1/2, 1/5, 1/5⟩).h : ℚ) = 20 := by
  have h := C5_normalization ⟨"car", 3/5, 1/2, 1/2, 1/5, 1/5⟩ 100 100 50 50 20 20
    (by norm_num) (by norm_num) (by norm_num) (by norm_num) (by norm_num) (by norm_num)
  refine ⟨?_, ?_, ?_, ?_⟩
  · rw [h.1]; norm_num
  · rw [h.2.1]; norm_num
  · rw [h.2.2.1]; norm_num
  · rw [h.2.2.2]; norm_num

/-- C6: every reported sample is the corresponding surviving detection with
confidence rounded to 2 decimals and bbox percentages `top = y/H*100`,
`left = x/W*100`, `width = w/W*100`, `height = h/H*100`, each rounded to 2
decimals — stated for the ultralytics path (corner geometry) and the yolov4
path (pixel x/y/w/h); in particular x=10, y=20, w=30, h=40 on a 100×200
frame reports bbox (left 10.0, top 10.0, width 30.0, height 20.0). -/
theorem C6_sample_formulas :
    (∀ frames : List YoloFrame,
      (run_yolo_inference frames).sample_detections
        = ((yoloAllBoxes frames).take 20).map (fun p =>
            { label := p.2.2.label
              confidence := round2 p.2.2.confidence
              top := round2 (p.2.2.y1 / p.1 * 100)
              left := round2 (p.2.2.x1 / p.2.1 * 100)
              width := round2 ((p.2.2.x2 - p.2.2.x1) / p.2.1 * 100)
              height := round2 ((p.2.2.y2 - p.2.2.y1) / p.1 * 100) })) ∧
    (∀ frames : List DetFrame,
      (detect_cars frames).sample_detections
        = ((detectAllBoxes frames).take 20).map (fun p =>
            { label := p.2.2.label
              confidence := round2 p.2.2.confidence
              top := round2 ((p.2.2.y : ℚ) / p.2.1 * 100)
              left := round2 ((p.2.2.x : ℚ) / p.1 * 100)
              width := round2 ((p.2.2.w : ℚ) / p.1 * 100)
              height := round2 ((p.2.2.h : ℚ) / p.2.1 * 100) })) ∧
    detectSample 100 200 ⟨"car", 9/10, 10, 20, 30, 40⟩
      = { label := "car", confidence := 9/10, top := 10, left := 10,
          width := 30, height := 20 } := by
  refine ⟨fun frames => ?_, fun frames => ?_, ?_⟩
  · rw [(run_yolo_state frames).1, yoloAllSamples_eq_map, List.map_take]
    rfl
  · rw [(detect_state frames).1, detectAllSamples_eq_map, List.map_take]
    rfl
  · unfold detectSample
    simp only [Sample.mk.injEq, true_and]
    refine ⟨?_, ?_, ?_, ?_, ?_⟩
    · rw [round2_eq _ 90 (by norm_num)]
      norm_num
    · rw [round2_eq _ 1000 (by push_cast; norm_num)]
      norm_num
    · rw [round2_eq _ 1000 (by push_cast; norm_num)]
      norm_num
    · rw [round2_eq _ 3000 (by push_cast; norm_num)]
      norm_num
    · rw [round2_eq _ 2000 (by push_cast; norm_num)]
      norm_num

/-- C7 counterexample: nothing clamps the reported percentages — a
normalized box with negative pixel x (center 5, width 30) is reported with
`left = -10`, outside [0, 100]. -/
theorem C7_counterexample :
    ¬ (∀ frames : List DetFrame, ∀ s ∈ (detect_cars frames).sample_detections,
        0 ≤ s.top ∧ s.top ≤ 100 ∧ 0 ≤ s.left ∧ s.left ≤ 100 ∧
        0 ≤ s.width ∧ s.width ≤ 100 ∧ 0 ≤ s.height ∧ s.height ≤ 100) := by
  intro h
  have hs := detect_cars_singleton 100 100 ⟨"car", 3/5, 1/20, 1/2, 3/10, 3/10⟩
    (by simp [vocab4]) (by norm_num)
  have hmem : detectSample 100 100 (mkCandidate 100 100 ⟨"car", 3/5, 1/20, 1/2, 3/10, 3/10⟩)
      ∈ (detect_cars [⟨100, 100, [⟨"car", 3/5, 1/20, 1/2, 3/10, 3/10⟩]⟩]).sample_detections := by
    rw [hs]
    exact List.mem_singleton_self _
  have hc := (h _ _ hmem).2.2.1
  have hx : (mkCandidate 100 100 ⟨"car", 3/5, 1/20, 1/2, 3/10, 3/10⟩).x = -10 := by
    norm_num [mkCandidate, pyInt]
    exact ceil_intCast_eval (-10) _ (by norm_num)
  rw [show (detectSample 100 100 (mkCandidate 100 100 ⟨"car", 3/5, 1/20, 1/2, 3/10, 3/10⟩)).left
        = round2 (((mkCandidate 100 100 ⟨"car", 3/5, 1/20, 1/2, 3/10, 3/10⟩).x : ℚ) / 100 * 100)
      from rfl, hx, round2_eq _ (-1000) (by push_cast; norm_num)] at hc
  norm_num at hc

/-- C7 (amended): the reported bbox percentages are the raw rounded ratios
with no clamping: a detection whose pixel box extends left of the frame is
reported with a negative `left` (here exactly -10), not clamped into
[0, 100]. -/
theorem C7_unclamped_percentages :
    (∀ frames : List DetFrame,
      (detect_cars frames).sample_detections = (detectAllSamples frames).take 20) ∧
    (detect_cars [⟨100, 100, [⟨"car", 3/5, 1/20, 1/2, 3/10, 3/10⟩]⟩]).sample_detections
        = [detectSample 100 100 (mkCandidate 100 100 ⟨"car", 3/5, 1/20, 1/2, 3/10, 3/10⟩)] ∧
    (detectSample 100 100 (mkCandidate 100 100 ⟨"car", 3/5, 1/20, 1/2, 3/10, 3/10⟩)).left
        = -10 := by
  refine ⟨fun frames => (detect_state frames).1,
    detect_cars_singleton 100 100 ⟨"car", 3/5, 1/20, 1/2, 3/10, 3/10⟩
      (by simp [vocab4]) (by norm_num), ?_⟩
  have hx : (mkCandidate 100 100 ⟨"car", 3/5, 1/20, 1/2, 3/10, 3/10⟩).x = -10 := by
    norm_num [mkCandidate, pyInt]
    exact ceil_intCast_eval (-10) _ (by norm_num)
  rw [show (detectSample 100 100 (mkCandidate 100 100 ⟨"car", 3/5, 1/20, 1/2, 3/10, 3/10⟩)).left
        = round2 (((mkCandidate 100 100 ⟨"car", 3/5, 1/20, 1/2, 3/10, 3/10⟩).x : ℚ) / 100 * 100)
      from rfl, hx, round2_eq _ (-1000) (by push_cast; norm_num)]
  push_cast
  norm_num

/-- C8: a run that reads zero frames still produces a report with total 0,
all-zero counts over the known vocabulary, phase red and no samples — in the
simulated path, the ultralytics path and the yolov4 path. -/
theorem C8_empty_video :
    main_report (simulate_processing 640 360 []) =
      { vehicle_counts := simInitCounts, total_vehicles := 0, load_score := 0,
        phase := "red", sample_detections := [] } ∧
    sumValues simInitCounts = 0 ∧
    main_report (run_yolo_inference []) =
      { vehicle_counts := [], total_vehicles := 0, load_score := 0,
        phase := "red", sample_detections := [] } ∧
    detect_report (detect_cars []) =
      { vehicle_counts := detectInitCounts, total_vehicles := 0, load_score := 0,
        phase := "red", sample_detections := [] } ∧
    sumValues detectInitCounts = 0 := by
  exact ⟨rfl, rfl, rfl, rfl, rfl⟩

/-- C10 counterexample: the generator draws `x ≤ max(0, width - w)`, so on a
frame smaller than the box (width 30, box width 40) the box is not inside
the frame: x = 0 is a valid draw and x + w = 40 > 30. -/
theorem C10_counterexample :
    ¬ (∀ (width height : ℤ) (b : SimBox), simBoxValid width height b →
        b.x + b.w ≤ width ∧ b.y + b.h ≤ height) := by
  intro h
  have hbv : simBoxValid 30 30 ⟨"car", 3/5, 40, 40, 0, 0⟩ :=
    ⟨by simp [simLabels], by norm_num, by norm_num, by norm_num, by norm_num,
      by norm_num, by norm_num, by norm_num,
      by show (0 : ℤ) ≤ max 0 (30 - 40); omega,
      by norm_num,
      by show (0 : ℤ) ≤ max 0 (30 - 40); omega⟩
  have hc := (h 30 30 ⟨"car", 3/5, 40, 40, 0, 0⟩ hbv).1
  exact absurd hc (by show ¬ ((0 : ℤ) + 40 ≤ 30); omega)

/-- C10 (amended): in the simulated path every frame contributes 1 to 4
counted detections with confidence in [0.55, 0.95] and a box drawn inside
the clamped range — inside the frame whenever the drawn size fits the frame
(always when the frame is at least 120×120); hence for n frames read,
n ≤ total ≤ 4n, and any simulated run over at least 15 frames is green. -/
theorem C10_simulated_bounds (width height : ℤ) (frames : List (List SimBox))
    (hv : ∀ f ∈ frames, simFrameValid width height f) :
    frames.length ≤ (simulate_processing width height frames).total ∧
    (simulate_processing width height frames).total ≤ 4 * frames.length ∧
    (∀ f ∈ frames, ∀ b ∈ f,
      11/20 ≤ b.confidence ∧ b.confidence ≤ 19/20 ∧
      (b.w ≤ width → 0 ≤ b.x ∧ b.x + b.w ≤ width) ∧
      (b.h ≤ height → 0 ≤ b.y ∧ b.y + b.h ≤ height)) ∧
    (15 ≤ frames.length →
      phaseOf (simulate_processing width height frames).total = "green") := by
  have htot : (simulate_processing width height frames).total
      = (frames.map List.length).sum := by
    rw [(sim_state width height frames).2, simAllSamples_length]
  obtain ⟨hlo, hhi⟩ := sum_lengths_bounds width height frames hv
  refine ⟨by rw [htot]; exact hlo, by rw [htot]; exact hhi, ?_, ?_⟩
  · intro f hf b hb
    obtain ⟨_, _, hball⟩ := hv f hf
    obtain ⟨hlbl, hc1, hc2, hw1, hw2, hh1, hh2, hx1, hx2, hy1, hy2⟩ := hball b hb
    refine ⟨hc1, hc2, fun hw => ⟨hx1, by omega⟩, fun hh => ⟨hy1, by omega⟩⟩
  · intro h15
    have hge : (simulate_processing width height frames).total ≥ 15 := by
      rw [htot]
      omega
    unfold phaseOf
    rw [if_pos hge]

/-- C10 witness: a 15-frame simulated run with one valid box per frame is
classified green. -/
theorem C10_simulated_bounds_witness :
    phaseOf (simulate_processing 640 360
        (List.replicate 15 [⟨"car", 3/5, 40, 40, 0, 0⟩])).total = "green" :=
  (C10_simulated_bounds 640 360 (List.replicate 15 [⟨"car", 3/5, 40, 40, 0, 0⟩])
    (by
      intro f hf
      rw [List.eq_of_mem_replicate hf]
      refine ⟨by norm_num, by norm_num, ?_⟩
      intro b hb
      rw [List.mem_singleton.mp hb]
      exact ⟨by simp [simLabels], by norm_num, by norm_num, by norm_num, by norm_num,
        by norm_num, by norm_num, by norm_num,
        by show (0 : ℤ) ≤ max 0 (640 - 40); omega,
        by norm_num,
        by show (0 : ℤ) ≤ max 0 (360 - 40); omega⟩)).2.2.2
    (by simp)
